import Mathlib

/-!
# Verification of the `ra_fmt2` rule-driven formatting engine

Shallow embedding of `crates/ra_fmt2` (files `whitespace.rs`, `engine.rs`,
`edit_tree.rs`).  Syntax kinds are naturals (`WHITESPACE = 0`), token texts
are `List Char`, and the per-block mutable `Whitespace` records (Rust
`RefCell<Whitespace>`) are a store `Nat → WS` keyed by the block's pre-order
id, updated functionally.

The crate modules `dsl.rs`, `pattern.rs`, `rules.rs` and `trav_util.rs` are
not part of the sources; the definitions taken from them are modelled from
the specification and are marked `Modelled from the spec:` in their doc
comments.  Panics (`unreachable!`, `assert!`) are modelled as `Except.error`.
-/

namespace RaFmt

/-- Syntax kind of the whitespace trivia token (`SyntaxKind::WHITESPACE`). -/
def WHITESPACE : Nat := 0

/-- A lossless concrete syntax tree as supplied by the external parser:
every token, including whitespace, is retained. -/
inductive CST where
  | token (kind : Nat) (text : List Char)
  | node (kind : Nat) (children : List CST)

mutual

/-- All tokens (including whitespace trivia) of a subtree, in source order.
This also models `trav_util::walk_tokens`.
Modelled from the spec: `trav_util.rs` is absent from the sources; the spec
describes the optional-newline check as a full subtree scan over tokens. -/
def cstToks : CST → List (Nat × List Char)
  | .token k t => [(k, t)]
  | .node _ cs => cstToksList cs

/-- Tokens of a list of subtrees, in order. -/
def cstToksList : List CST → List (Nat × List Char)
  | [] => []
  | c :: rest => cstToks c ++ cstToksList rest

end

/-- Full text of a subtree: concatenation of all its token texts
(`SyntaxNode::text`). -/
def cstText (c : CST) : List Char :=
  ((cstToks c).map Prod.snd).flatten

/-- `Whitespace` (whitespace.rs): per-block record of newline-presence pair
`new_line`, space-count pair `text_len`, the `starts_with_lf` flag, and —
standing in for the `original` element back-reference, which is used only by
`siblings_contain` — the list `toks` of the token texts of the original
parent node's subtree (empty for node blocks, where `siblings_contain`
returns `false`). -/
structure WS where
  newL : Bool
  newR : Bool
  lenL : Nat
  lenR : Nat
  startsLF : Bool
  toks : List (List Char)
deriving DecidableEq, Repr

/-- The all-zero / all-none whitespace record (root node case). -/
def wsZero : WS := ⟨false, false, 0, 0, false, []⟩

/-- `calc_num_space_tkn` (whitespace.rs): number of non-newline characters of
a whitespace token's text (character count, minus the newline count when a
newline is present). -/
def calcNumSpace (t : List Char) : Nat :=
  if t.contains '\n' then t.length - (t.filter (fun c => c = '\n')).length
  else t.length

/-- `Whitespace::siblings_contain` (whitespace.rs): does any token of the
original parent's subtree have text exactly `pat`?  For node blocks
(`into_token` fails) the stored `toks` is empty and the answer is `false`. -/
def siblingsContain (w : WS) (pat : List Char) : Bool :=
  w.toks.contains pat

/-- `SpaceValue` (dsl.rs).
Modelled from the spec: `dsl.rs` is absent from the sources; the variants are
those the spec's value table and `match_space_*`/`fix_spacing_*` use. -/
inductive SpaceValue where
  | none
  | single
  | newline
  | singleOrNewline
  | singleOptionalNewline
  | noneOrNewline
  | noneOptionalNewline
deriving DecidableEq, Repr

/-- `SpaceLoc` (dsl.rs).
Modelled from the spec: location of a spacing rule relative to the matched
token. -/
inductive SpaceLoc where
  | before
  | after
  | around
deriving DecidableEq, Repr

/-- `SpacingRule` (dsl.rs) with its `Pattern` (pattern.rs).
Modelled from the spec: a pattern is a pure predicate over an element's
kind, represented as the list of kinds it accepts; a spacing rule pairs a
pattern with a location and a value. -/
structure SpacingRule where
  pats : List Nat
  loc : SpaceLoc
  value : SpaceValue
deriving DecidableEq, Repr

/-- `Whitespace::match_space_after` (whitespace.rs), exactly as written. -/
def matchSpaceAfter (w : WS) (v : SpaceValue) : Bool :=
  match v with
  | .single => w.lenR == 1
  | .singleOrNewline => w.lenR == 1 || w.newR
  | .singleOptionalNewline => w.lenR == 1 || w.newR
  | .newline => w.newR
  | .noneOrNewline => w.lenR == 0 || w.newR
  | .noneOptionalNewline => w.lenR == 0 && w.newR
  | .none => w.lenR == 0 || !w.newR

/-- `Whitespace::match_space_before` (whitespace.rs), exactly as written. -/
def matchSpaceBefore (w : WS) (v : SpaceValue) : Bool :=
  match v with
  | .single => w.lenL == 1
  | .singleOrNewline => w.lenL == 1 || w.newL
  | .singleOptionalNewline => w.lenL == 1 || w.newL
  | .newline => w.newL
  | .noneOrNewline => w.lenL == 0 || w.newL
  | .noneOptionalNewline => w.lenL == 0 && w.newL
  | .none => w.lenL == 0 || !w.newL

/-- `Whitespace::fix_spacing_after` (whitespace.rs): only `Single`, `Newline`
and `SingleOptionalNewline` mutate the trailing fields; every other value
(including `None`) falls through the wildcard arm unchanged. -/
def fixSpacingAfter (w : WS) (v : SpaceValue) : WS :=
  match v with
  | .single => { w with lenR := 1, newR := false }
  | .newline => { w with newR := true, lenR := 0 }
  | .singleOptionalNewline =>
      if siblingsContain w ['\n'] then { w with newR := true, lenR := 0 }
      else { w with lenR := 1, newR := false }
  | _ => w

/-- `Whitespace::fix_spacing_before` (whitespace.rs): only `Single`,
`Newline` and `SingleOptionalNewline` mutate the leading fields; every other
value (including `None`) falls through the wildcard arm unchanged. -/
def fixSpacingBefore (w : WS) (v : SpaceValue) : WS :=
  match v with
  | .single => { w with lenL := 1, newL := false }
  | .newline => { w with newL := true, lenL := 0 }
  | .singleOptionalNewline =>
      if siblingsContain w ['\n'] then { w with newL := true, lenL := 0 }
      else { w with lenL := 1, newL := false }
  | _ => w

/-- `Whitespace::fix_spacing_around` (whitespace.rs). -/
def fixSpacingAround (w : WS) (v : SpaceValue) : WS :=
  match v with
  | .single => { w with lenL := 1, lenR := 1, newL := false, newR := false }
  | .newline => { w with newL := true, newR := true, lenL := 0, lenR := 0 }
  | _ => w

/-- `Whitespace::apply_space_fix` (whitespace.rs): dispatch on the rule's
location. -/
def applySpaceFix (w : WS) (loc : SpaceLoc) (v : SpaceValue) : WS :=
  match loc with
  | .after => fixSpacingAfter w v
  | .before => fixSpacingBefore w v
  | .around => fixSpacingAround w v

/-- Repeated space characters. -/
def spaces (n : Nat) : List Char := List.replicate n ' '

/-- `Whitespace::to_space_text` (whitespace.rs): the rendered leading and
trailing whitespace of a block.  Leading: a newline (plus the indent spaces
when `starts_with_lf` and the count is positive), else a single space when
the count is at least one.  Trailing: a newline, else a single space when
the count is at least one. -/
def toSpaceText (w : WS) : List Char × List Char :=
  (if w.newL then
     (if w.startsLF && w.lenL > 0 then '\n' :: spaces w.lenL else ['\n'])
   else if w.lenL ≥ 1 then [' '] else [],
   if w.newR then ['\n'] else if w.lenR ≥ 1 then [' '] else [])

/-- Sibling summary used by `Whitespace::from_node`: the sibling element's
kind and, when it is a token, its text (`none` for node siblings). -/
abbrev Sib := Nat × Option (List Char)

/-- The sibling summary of a tree element. -/
def sibOf : CST → Sib
  | .token k t => (k, some t)
  | .node k _ => (k, none)

/-- `Whitespace::from_node` (whitespace.rs, the live first definition):
derive a node's whitespace from its immediately adjacent previous and next
siblings.  `starts_with_lf` and the space counts come from a sibling only
when it is a `WHITESPACE` token; the newline flags come from any token
sibling's text (`false` for node siblings).  The `(None, None)` case is the
root node and yields the explicit zero/none record. -/
def wsFromNode (prev next : Option Sib) : WS :=
  let pl : Bool × Nat := match prev with
    | some (k, some t) =>
        if k = WHITESPACE then (t.head? = some '\n', calcNumSpace t) else (false, 0)
    | _ => (false, 0)
  let nl : Nat := match next with
    | some (k, some t) => if k = WHITESPACE then calcNumSpace t else 0
    | _ => 0
  let pline : Bool := match prev with
    | some (_, some t) => t.contains '\n'
    | _ => false
  let nline : Bool := match next with
    | some (_, some t) => t.contains '\n'
    | _ => false
  { newL := pline, newR := nline, lenL := pl.2, lenR := nl,
    startsLF := pl.1, toks := [] }

/-- `Whitespace::from_token` (whitespace.rs): derive a token's whitespace
from its globally previous and next tokens (`prev_token`/`next_token`).
The `(None, None)` case — the sole token of a single-token file — hits
`unreachable!("Whitespace::new")`, modelled as `none`.  `ptoks` stands in
for the `original` back-reference: the token texts of the parent's subtree,
consumed by `siblings_contain`. -/
def wsFromToken (prev next : Option (Nat × List Char))
    (ptoks : List (List Char)) : Option WS :=
  match prev, next with
  | some (pk, pt), some (nk, nt) =>
      let pl : Bool × Nat :=
        if pk = WHITESPACE then (pt.head? = some '\n', calcNumSpace pt) else (false, 0)
      some { newL := pt.contains '\n', newR := nt.contains '\n',
             lenL := pl.2, lenR := if nk = WHITESPACE then calcNumSpace nt else 0,
             startsLF := pl.1, toks := ptoks }
  | some (pk, pt), none =>
      let pl : Bool × Nat :=
        if pk = WHITESPACE then (pt.head? = some '\n', calcNumSpace pt) else (false, 0)
      some { newL := pt.contains '\n', newR := false,
             lenL := pl.2, lenR := 0, startsLF := pl.1, toks := ptoks }
  | none, some (nk, nt) =>
      some { newL := false, newR := nt.contains '\n',
             lenL := 0, lenR := if nk = WHITESPACE then calcNumSpace nt else 0,
             startsLF := false, toks := ptoks }
  | none, none => none

/-- The immutable per-block data of a `Block` (edit_tree.rs): the pre-order
id standing in for the block's identity, the element's kind, whether it is a
token, its text, the ancestor chain `ancs` as (kind, original indent) pairs
with the closest ancestor first (what `ancestors_nodes` rebuilds on demand
from the original tree), and the initial whitespace record `ws0`. -/
structure BlockData where
  id : Nat
  kind : Nat
  isTok : Bool
  text : List Char
  ancs : List (Nat × Nat)
  ws0 : WS
deriving DecidableEq, Repr

/-- `Block` (edit_tree.rs): one CST node or token with its children
(whitespace-only tokens elided). -/
inductive Block where
  | mk (data : BlockData) (children : List Block)

/-- The data of a block. -/
def Block.data : Block → BlockData
  | .mk d _ => d

/-- The children of a block (empty for tokens). -/
def Block.children : Block → List Block
  | .mk _ cs => cs

/-- The id of a block. -/
def Block.id (b : Block) : Nat := b.data.id

/-- `Block::kind`. -/
def Block.kind (b : Block) : Nat := b.data.kind

/-- Whether the block wraps a token (`Block::is_leaf`). -/
def Block.isTok (b : Block) : Bool := b.data.isTok

/-- `Block::as_str`: the block's cached text. -/
def Block.text (b : Block) : List Char := b.data.text

/-- The ancestor chain of a block, closest first, as (kind, original indent)
pairs (`Block::ancestors_nodes` together with `Block::get_indent` on the
on-demand ancestor blocks). -/
def Block.ancs (b : Block) : List (Nat × Nat) := b.data.ancs

/-- Is this CST element a whitespace token (the only elements
`Block::build_block` elides as children)? -/
def isWsTok : CST → Bool
  | .token k _ => k == WHITESPACE
  | .node _ _ => false

/-- Formatting failures.  The engine's panics are modelled as errors:
`panicWS` is `unreachable!("Whitespace::new")` in `Whitespace::from_token`,
`panicAssert` is `assert!(matching.next().is_none(), "more than one indent
rule matched")` in `FmtDiff::indent_diff`. -/
inductive FmtErr where
  | panicWS
  | panicAssert
deriving DecidableEq, Repr

mutual

/-- `Block::build_block` (edit_tree.rs) together with `Whitespace::new`:
wrap a CST element into a block.  `g` is the global token list of the whole
file (for `prev_token`/`next_token`), `pos` the index in `g` of the
subtree's first token, `prevS`/`nextS` the element's adjacent siblings,
`ptoks` the parent's subtree token texts, `ancs` the ancestor chain and `i`
the next free pre-order id.  Returns the block and the next free id, or the
`from_token` panic. -/
def buildE (g : List (Nat × List Char)) (c : CST) (prevS nextS : Option Sib)
    (ptoks : List (List Char)) (ancs : List (Nat × Nat)) (pos i : Nat) :
    Except FmtErr (Block × Nat) :=
  match c with
  | .token k t =>
      match wsFromToken (if pos = 0 then none else g.get? (pos - 1))
          (g.get? (pos + 1)) ptoks with
      | some w => .ok (.mk ⟨i, k, true, t, ancs, w⟩ [], i + 1)
      | none => .error .panicWS
  | .node k cs =>
      match buildKids g cs none ((cstToksList cs).map Prod.snd)
          ((k, if (wsFromNode prevS nextS).startsLF then (wsFromNode prevS nextS).lenL
               else 0) :: ancs) pos (i + 1) with
      | .ok (bs, i') =>
          .ok (.mk ⟨i, k, false, cstText (.node k cs), ancs, wsFromNode prevS nextS⟩ bs, i')
      | .error e => .error e

/-- Build the child blocks of a node, skipping whitespace tokens (which stay
in the original tree as trivia only), threading sibling context, global
token positions and ids. -/
def buildKids (g : List (Nat × List Char)) (cs : List CST)
    (prevS : Option Sib) (ptoks : List (List Char)) (ancs : List (Nat × Nat))
    (pos i : Nat) : Except FmtErr (List Block × Nat) :=
  match cs with
  | [] => .ok ([], i)
  | c :: rest =>
      let nextS := rest.head?.map sibOf
      let pos' := pos + (cstToks c).length
      if isWsTok c then buildKids g rest (some (sibOf c)) ptoks ancs pos' i
      else
        match buildE g c prevS nextS ptoks ancs pos i with
        | .ok (b, i1) =>
            match buildKids g rest (some (sibOf c)) ptoks ancs pos' i1 with
            | .ok (bs, i2) => .ok (b :: bs, i2)
            | .error e => .error e
        | .error e => .error e

end

/-- `EditTree::new` / `EditTree::build_tree` (edit_tree.rs): build the block
tree from the root element (no siblings, empty ancestor chain). -/
def build (c : CST) : Except FmtErr Block :=
  (buildE (cstToks c) c none none [] [] 0 0).map Prod.fst

mutual

/-- Find the initial whitespace record of the block with the given id. -/
def lookupWS : Block → Nat → Option WS
  | .mk d cs, j => if d.id = j then some d.ws0 else lookupWSList cs j

/-- List version of `lookupWS`. -/
def lookupWSList : List Block → Nat → Option WS
  | [], _ => none
  | b :: rest, j => match lookupWS b j with
      | some w => some w
      | none => lookupWSList rest j

end

/-- The store of mutable whitespace records, keyed by block id: the
collection of all the tree's `RefCell<Whitespace>` cells. -/
abbrev Store := Nat → WS

/-- The initial store of a built tree: each block's own `Whitespace`. -/
def initStore (b : Block) : Store :=
  fun j => (lookupWS b j).getD wsZero

/-- Write one block's whitespace cell (`RefCell::borrow_mut`). -/
def setWS (st : Store) (j : Nat) (w : WS) : Store :=
  fun j' => if j' = j then w else st j'

mutual

/-- `Block::order_flatten_blocks_tokens` (edit_tree.rs), on a children list:
push token children, recurse into children whose child list is non-empty. -/
def flattenToks : List Block → List Block
  | [] => []
  | c :: rest =>
      (if c.isTok then [c] else []) ++
      (if c.children.isEmpty then [] else flattenToksOf c) ++
      flattenToks rest

/-- Recursion step of `order_flatten_blocks_tokens` on one block. -/
def flattenToksOf : Block → List Block
  | .mk _ cs => flattenToks cs

end

/-- `EditTree::walk_tokens`: all token blocks in pre-order. -/
def walkTokensB (b : Block) : List Block := flattenToksOf b

mutual

/-- `Block::order_flatten_blocks_inc` (edit_tree.rs): the block itself, then
each child followed — when the child has children — by the child's own
`order_flatten_blocks_inc`, which repeats the child (the source pushes the
child and then appends the recursive flattening that starts with it). -/
def flattenInc : Block → List Block
  | .mk d cs => .mk d cs :: flattenIncList cs

/-- The child loop shared by `order_flatten_blocks_inc` and
`order_flatten_blocks_exc_curr`. -/
def flattenIncList : List Block → List Block
  | [] => []
  | c :: rest =>
      c :: ((if c.children.isEmpty then [] else flattenInc c) ++ flattenIncList rest)

end

/-- `EditTree::walk_exc_root` / `order_flatten_blocks_exc_curr`. -/
def walkExcRoot : Block → List Block
  | .mk _ cs => flattenIncList cs

/-- `Block::get_indent` (edit_tree.rs) read against the live store: the
leading space count when the leading trivia starts with a line feed, else
zero. -/
def getIndentOf (st : Store) (b : Block) : Nat :=
  if (st b.id).startsLF then (st b.id).lenL else 0

/-- `Block::set_indent` (edit_tree.rs): overwrite the leading space count of
the block's whitespace cell. -/
def setIndent (st : Store) (b : Block) (n : Nat) : Store :=
  setWS st b.id { st b.id with lenL := n }

/-- `PatternSet::matching` over a spacing rule table.
Modelled from the spec: `pattern.rs` is absent from the sources; a pattern
matches an element when the element's kind is in its kind set, and matching
rules are yielded in declaration order. -/
def matchingRules (rules : List SpacingRule) (b : Block) : List SpacingRule :=
  rules.filter (fun r => r.pats.contains b.kind)

/-- `Block::set_spacing_before`, called by `FmtDiff::compute_spacing`.
Modelled from the spec: the method is absent from `edit_tree.rs`; per the
spec a `Before` decision mutates the edge-owning (right) block's leading
fields, so the rule's value is applied to the block's leading whitespace via
`fix_spacing_before`. -/
def setSpacingBefore (st : Store) (b : Block) (rule : SpacingRule) : Store :=
  setWS st b.id (fixSpacingBefore (st b.id) rule.value)

/-- `FmtDiff::compute_spacing` (engine.rs): take snapshots of both blocks'
whitespace, then (1) if the right block's leading whitespace does not match
the rule's value and the rule's location is `Before`, fix the right block's
leading edge; (2) if the left block's trailing whitespace does not match the
value and the rule's pattern matches the left block, fix the right block's
leading edge as well. -/
def computeSpacing (st : Store) (rule : SpacingRule) (l r : Block) : Store :=
  let lws := st l.id
  let rws := st r.id
  let st1 :=
    if ¬ matchSpaceBefore rws rule.value ∧ rule.loc = .before then
      setSpacingBefore st r rule
    else st
  if ¬ matchSpaceAfter lws rule.value ∧ rule.pats.contains l.kind then
    setSpacingBefore st1 r rule
  else st1

/-- One adjacent token pair of `FmtDiff::spacing_diff`: chain the rules
matching the left and the right token (in that order) and run
`compute_spacing` for each. -/
def spacingPair (rules : List SpacingRule) (st : Store) (l r : Block) : Store :=
  (matchingRules rules l ++ matchingRules rules r).foldl
    (fun st rule => computeSpacing st rule l r) st

/-- `FmtDiff::spacing_diff` (engine.rs): fold `compute_spacing` over all
adjacent token pairs (`walk_tokens` zipped with itself shifted by one). -/
def spacingDiff (rules : List SpacingRule) (st : Store) (toks : List Block) :
    Store :=
  (toks.zip (toks.drop 1)).foldl (fun st p => spacingPair rules st p.1 p.2) st

/-- `IndentRule` (dsl.rs).
Modelled from the spec: a pattern identifying the indentable constructs, as
a kind set. -/
structure IndentRule where
  pats : List Nat
deriving DecidableEq, Repr

/-- `IndentDsl` (dsl.rs).
Modelled from the spec: the ordered indent rules and the set of anchor
patterns (each a kind set). -/
structure IndentDsl where
  anchors : List (List Nat)
  rules : List IndentRule
deriving DecidableEq, Repr

/-- `INDENT` (whitespace.rs): the base indent unit, four spaces. -/
def INDENT : Nat := 4

/-- Does any anchor pattern match the kind (`anchor_set.matching(..).next()
.is_some()`)? -/
def anchorMatches (anchors : List (List Nat)) (k : Nat) : Bool :=
  anchors.any (fun p => p.contains k)

/-- The ancestor walk of `FmtDiff::check_indent` (engine.rs): start from
`INDENT` and add, for every ancestor matched by an anchor pattern, that
ancestor's own indent as rebuilt on demand from the original tree. -/
def indentAnchors (anchors : List (List Nat)) (ancs : List (Nat × Nat)) : Nat :=
  ancs.foldl (fun acc a => if anchorMatches anchors a.1 then acc + a.2 else acc)
    INDENT

/-- The token search of `FmtDiff::check_indent`: from a first child,
repeatedly descend into first children until a token is reached (the
`std::iter::successors … find` chain); `none` when the descent dies out. -/
def descendFirst : Block → Option Block
  | .mk d [] => if d.isTok then some (.mk d []) else none
  | .mk d (c :: cs) =>
      if d.isTok then some (.mk d (c :: cs)) else descendFirst c

/-- The first token reachable from a block's first child by repeatedly
descending into first children. -/
def firstTokenDesc (b : Block) : Option Block :=
  match b.children with
  | [] => none
  | c :: _ => descendFirst c

/-- `FmtDiff::check_indent` (engine.rs): compute the anchored indent width;
when the block's current indent differs, write the width to the first token
reached by descending into first children, or to the block itself when no
such token exists. -/
def checkIndent (anchors : List (List Nat)) (st : Store) (b : Block) : Store :=
  let w := indentAnchors anchors b.ancs
  if getIndentOf st b ≠ w then
    match firstTokenDesc b with
    | some t => setIndent st t w
    | none => setIndent st b w
  else st

/-- One block of `FmtDiff::indent_diff` (engine.rs): when at least one
indent rule matches and the block's leading whitespace starts with a line
feed, run `check_indent` and then assert that no second rule matched
(`panicAssert` otherwise).  Without a leading line feed, matching rules are
ignored. -/
def indentStep (dsl : IndentDsl) (st : Store) (b : Block) :
    Except FmtErr Store :=
  let ms := dsl.rules.filter (fun r => r.pats.contains b.kind)
  match ms with
  | [] => .ok st
  | _ :: more =>
      if (st b.id).startsLF then
        let st' := checkIndent dsl.anchors st b
        if more.isEmpty then .ok st' else .error .panicAssert
      else .ok st

/-- `FmtDiff::indent_diff` (engine.rs): fold `indentStep` over all blocks
excluding the root. -/
def indentDiff (dsl : IndentDsl) (st : Store) (blocks : List Block) :
    Except FmtErr Store :=
  blocks.foldlM (indentStep dsl) st

/-- Pair each list element with its successor (`none` for the last): the
lookahead the renderer's `scan` keeps via its deduplicated iterator. -/
def zipNext : List α → List (α × Option α)
  | [] => []
  | [a] => [(a, none)]
  | a :: b :: rest => (a, some b) :: zipNext (b :: rest)

/-- `str_from_blk` (edit_tree.rs): render one token block — its leading
whitespace, its text, and its trailing whitespace, the latter suppressed
when it equals the next token's leading whitespace or when that leading
whitespace contains a newline (the two sides describe the same physical
gap). -/
def renderTok (st : Store) (b : Block) (next? : Option Block) : List Char :=
  let sp := toSpaceText (st b.id)
  let aft := match next? with
    | some n =>
        let nsp := toSpaceText (st n.id)
        if sp.2 = nsp.1 ∨ nsp.1.contains '\n' then [] else sp.2
    | none => sp.2
  sp.1 ++ b.text ++ aft

/-- `EditTree::apply_edits` (edit_tree.rs): walk the token blocks in order,
rendering each against its successor, and concatenate.  The source's `scan`
over the order-deduplicated token set paired with the one-ahead iterator is
exactly this successor pairing, since `walk_tokens` lists the (distinct)
tokens in text-range order. -/
def applyEdits (st : Store) (toks : List Block) : List Char :=
  ((zipNext toks).map (fun p => renderTok st p.1 p.2)).flatten

/-- `format_pass` followed by `tokens_to_string` (`format_str`, engine.rs):
build the tree, run the spacing pass then the indent pass, render.
The external parser is out of scope, so the input is the parsed tree; the
missing `EditTree::tokens_to_string` is `apply_edits` (the spec's renderer),
wrapped in the `Result` that `format_str` returns. -/
def format (c : CST) (sp : List SpacingRule) (ind : IndentDsl) :
    Except FmtErr (List Char) := do
  let b ← build c
  let st0 := initStore b
  let toks := walkTokensB b
  let st1 := spacingDiff sp st0 toks
  let st2 ← indentDiff ind st1 (walkExcRoot b)
  return applyEdits st2 toks

/-! ## Concrete example inputs -/

/-- Shorthand for a whitespace trivia token. -/
def wsT (s : String) : CST := .token WHITESPACE s.toList

/-- Shorthand for a non-trivia token. -/
def tk (k : Nat) (s : String) : CST := .token k s.toList

/-- Nested block constructs at column zero: `fn⏎{⏎x⏎}` with an inner block
node around `x`.  Kind 10 is the root, kind 11 a block construct, kind 1 a
plain token. -/
def tNest : CST :=
  .node 10 [tk 1 "fn", wsT "\n",
    .node 11 [tk 1 "\x7b", wsT "\n", .node 11 [tk 1 "x"], wsT "\n", tk 1 "\x7d"]]

/-- The parse of `format tNest`'s output `fn⏎····{⏎····x⏎}`: the identical
shape with the whitespace trivia re-derived from the output's gaps. -/
def tNest2 : CST :=
  .node 10 [tk 1 "fn", wsT "\n    ",
    .node 11 [tk 1 "\x7b", wsT "\n    ", .node 11 [tk 1 "x"], wsT "\n", tk 1 "\x7d"]]

/-- An indent rule table whose target pattern and anchor pattern are both
the block kind 11 (the spec's anchored-block-construct setup). -/
def blockDsl : IndentDsl := ⟨[[11]], [⟨[11]⟩]⟩

/-- The empty indent rule table. -/
def emptyIndent : IndentDsl := ⟨[], []⟩

/-- A two-token file `a;` with no trivia at all. -/
def tTwo : CST := .node 10 [tk 1 "a", tk 2 ";"]

/-- A single-token file: a recovered tree whose only token is `a`. -/
def tOne : CST := .node 10 [tk 1 "a"]

/-- An ambiguous indent table: two rules that both match kind 11. -/
def ambigDsl : IndentDsl := ⟨[], [⟨[11]⟩, ⟨[11]⟩]⟩

/-- A tree containing a kind-11 node whose leading whitespace does not start
with a line feed. -/
def tMidLine : CST := .node 10 [tk 1 "a", .node 11 [tk 2 "\x7b"]]

/-- Adjacent tokens `a` (kind 1) and `b` (kind 2) with no gap. -/
def tAdj : CST := .node 10 [tk 1 "a", tk 2 "b"]

/-- Conflicting spacing rules for `tAdj`: an After-Single rule matching the
left token and a Before-None rule matching the right token. -/
def conflictRules : List SpacingRule :=
  [⟨[1], .after, .single⟩, ⟨[2], .before, .none⟩]

/-- A whitespace record with two trailing spaces (and three leading ones). -/
def wsTwoAfter : WS := ⟨false, false, 3, 2, false, []⟩

/-- A whitespace record whose parent subtree contains a whitespace token
`"\n    "` — a newline followed by spaces, not the exact text `"\n"`. -/
def wsIndentedNl : WS := ⟨false, false, 0, 0, false, [['\n', ' ', ' ', ' ', ' ']]⟩

/-- A default block, for `Option.getD`. -/
def defBlock : Block := .mk ⟨0, 0, false, [], [], wsZero⟩ []

/-- The block tree built from `tTwo` (construction succeeds; this extracts
the result). -/
def bTwo : Block := ((build tTwo).toOption).getD defBlock

/-- A store that marks every record as a fresh line with a pending trailing
newline. -/
def stLF : Store := fun _ => ⟨false, true, 0, 0, true, []⟩

/-- A concrete left token block (id 0, kind 1). -/
def lBlk : Block := .mk ⟨0, 1, true, ['a'], [], wsZero⟩ []

/-- A concrete right token block (id 1, kind 2). -/
def rBlk : Block := .mk ⟨1, 2, true, ['b'], [], wsZero⟩ []

/-- A concrete block for the indent-computation claim: a kind-11 node block
with one ancestor of kind 11 whose original indent is two, and a single
token child. -/
def bIndent : Block :=
  .mk ⟨5, 11, false, ['x'], [(11, 2)], wsZero⟩ [.mk ⟨6, 1, true, ['x'], [], wsZero⟩ []]

/-- The block tree built from `tNest` (construction succeeds; this extracts
the result).  Pre-order ids: root 0, `fn` 1, outer block 2, its opener
token 3, inner block 4, `x` 5, closer token 6. -/
def bNest : Block := ((build tNest).toOption).getD defBlock

/-- The store after running the indent pass of `format tNest [] blockDsl`
(no spacing rules) on the built tree. -/
def stNest : Store :=
  (indentDiff blockDsl (initStore bNest) (walkExcRoot bNest)).toOption.getD
    (initStore bNest)

/-- Token signature of a block list: kinds and texts, in order. -/
def tokSig (bs : List Block) : List (Nat × List Char) :=
  bs.map (fun b => (b.kind, b.text))

/-- The token blocks contributed by one block to the token-only traversal. -/
def toksOf (b : Block) : List Block :=
  if b.isTok then [b] else flattenToksOf b

/-- Whitespace characters as the renderer emits them. -/
def isWsChar (c : Char) : Bool := c == ' ' || c == '\n'

/-- Interleave gap strings with token texts: `g₀ t₀ g₁ t₁ … gₙ`. -/
def interleave : List (List Char) → List (List Char) → List Char
  | [], _ => []
  | g :: _, [] => g
  | g :: gs, t :: ts => g ++ t ++ interleave gs ts

/-! ## Theorems -/

/-- C7: the claim says applying a `None` spacing decision leaves the edge
with zero spaces and no newline; in fact `fix_spacing_after` leaves the two
trailing spaces of this record untouched (`None` falls into the wildcard
arm), so the claim is false. -/
theorem c7_none_counterexample :
    (fixSpacingAfter wsTwoAfter .none).lenR = 2 ∧
    (fixSpacingBefore wsTwoAfter .none).lenL = 3 := by
  decide

/-- C7 amended: applying a spacing decision with value `None` is a no-op —
both `fix_spacing_after` and `fix_spacing_before` return the whitespace
record unchanged (the value falls into the wildcard match arm). -/
theorem c7_none_amended (w : WS) :
    fixSpacingAfter w .none = w ∧ fixSpacingBefore w .none = w := by
  exact ⟨rfl, rfl⟩

/-- C10: the newline-preservation scan `siblings_contain` compares token
texts for exact equality with `"\n"`; whenever no token of the parent's
subtree has that exact text (a token `"\n    "` does not qualify), the
`SingleOptionalNewline` fixes emit a single space instead of preserving the
newline. -/
theorem c10_exact_newline_scan (w : WS)
    (h : w.toks.contains ['\n'] = false) :
    siblingsContain w ['\n'] = false ∧
    fixSpacingAfter w .singleOptionalNewline = { w with lenR := 1, newR := false } ∧
    fixSpacingBefore w .singleOptionalNewline = { w with lenL := 1, newL := false } := by
  have h' : ['\n'] ∉ w.toks := by simpa using h
  refine ⟨h, ?_, ?_⟩ <;>
    simp [fixSpacingAfter, fixSpacingBefore, siblingsContain, h']

/-- C10 witness: a parent subtree containing only the whitespace token
`"\n    "` (newline followed by spaces) does not pass the exact-`"\n"` scan,
and the optional-newline fix emits a single space. -/
theorem c10_exact_newline_scan_witness :
    wsIndentedNl.toks.contains ['\n'] = false ∧
    (siblingsContain wsIndentedNl ['\n'] = false ∧
     fixSpacingAfter wsIndentedNl .singleOptionalNewline =
       { wsIndentedNl with lenR := 1, newR := false } ∧
     fixSpacingBefore wsIndentedNl .singleOptionalNewline =
       { wsIndentedNl with lenL := 1, newL := false }) :=
  ⟨by decide, c10_exact_newline_scan wsIndentedNl (by decide)⟩

/-- C3: the claim says formatting the empty string fails with `EmptyInput`;
in fact the code has no such error path — the parse of the empty string is a
childless root node, and formatting it succeeds with the empty string. -/
theorem c3_empty_counterexample :
    format (.node 21 []) [] ⟨[], []⟩ = .ok [] := by
  rfl

/-- C3 amended: formatting a childless root node (the parse of the empty
string) succeeds and returns the empty string, for every rule table; no
`EmptyInput` error exists in the engine. -/
theorem c3_empty_amended (k : Nat) (sp : List SpacingRule) (ind : IndentDsl) :
    format (.node k []) sp ind = .ok [] := by
  rfl

/-- C9: the claim says Block-tree construction never fails or panics,
including on a single-token file; in fact `Whitespace::from_token` hits
`unreachable!("Whitespace::new")` when the sole token has neither a previous
nor a next token, so building a single-token file panics. -/
theorem c9_single_token_counterexample :
    format tOne [] emptyIndent = .error .panicWS := by
  rfl

/-- C5: the claim says every successful format ends with exactly one newline
character; in fact no terminal newline rule exists — formatting the
two-token file `a;`, which has no trailing trivia, succeeds with the output
`a;`, which ends with `;`. -/
theorem c5_trailing_counterexample :
    format tTwo [] emptyIndent = .ok ['a', ';'] ∧
    (['a', ';'].getLast? = some '\n') = False := by
  exact ⟨rfl, by decide⟩

/-- C6: the claim says a right token's `Before` rule determines the
effective decision when it conflicts with the left token's `After` rule; in
fact the left's After-Single rule is applied first (to the right block's
leading edge), after which the Before-None rule's match succeeds (`None`
matches any newline-free edge) and it is skipped — the output keeps the
single space, not the zero spaces the Before rule demands. -/
theorem c6_tiebreak_counterexample :
    format tAdj conflictRules emptyIndent = .ok ['a', ' ', 'b'] ∧
    ['a', ' ', 'b'] ≠ ['a', 'b'] := by
  exact ⟨rfl, by decide⟩

/-- Helper: `fix_spacing_before` never touches the trailing newline flag,
the trailing space count, the `starts_with_lf` flag or the sibling-token
back-reference — only the leading fields. -/
theorem fixSpacingBefore_preserves (f : WS → α)
    (hf : ∀ (w : WS) nl n, f { w with newL := nl, lenL := n } = f w)
    (w : WS) (v : SpaceValue) : f (fixSpacingBefore w v) = f w := by
  cases v <;> simp only [fixSpacingBefore] <;> try rfl
  · exact hf w false 1
  · exact hf w true 0
  · split
    · exact hf w true 0
    · exact hf w false 1

/-- Helper: `compute_spacing` writes only the right block's whitespace cell. -/
theorem computeSpacing_other (st : Store) (rule : SpacingRule) (l r : Block)
    (j : Nat) (hj : j ≠ r.id) : computeSpacing st rule l r j = st j := by
  unfold computeSpacing setSpacingBefore setWS
  split <;> split <;> simp [hj]

/-- Helper: `compute_spacing` leaves every field of the right block's cell
other than the leading ones unchanged. -/
theorem computeSpacing_r_fields (f : WS → α)
    (hf : ∀ (w : WS) nl n, f { w with newL := nl, lenL := n } = f w)
    (st : Store) (rule : SpacingRule) (l r : Block) :
    f ((computeSpacing st rule l r) r.id) = f (st r.id) := by
  unfold computeSpacing setSpacingBefore setWS
  split <;> split <;>
    simp [fixSpacingBefore_preserves f hf]

/-- C6 amended: when a left token's `After` rule and a right token's
`Before` rule both match an edge, they are applied in sequence (the left's
rules first) and each mutates only the right block's *leading* whitespace
fields — nothing else in the store changes, and the right cell's trailing
fields and `starts_with_lf` are preserved.  The right rule does not always
determine the decision: each rule is applied only while the current
whitespace fails its match, so an earlier After fix that satisfies the
Before rule's match (e.g. After-Single satisfying Before-None) pre-empts
it. -/
theorem c6_tiebreak_amended (rules : List SpacingRule) (st : Store)
    (l r : Block) :
    (∀ j, j ≠ r.id → spacingPair rules st l r j = st j) ∧
    ((spacingPair rules st l r) r.id).lenR = (st r.id).lenR ∧
    ((spacingPair rules st l r) r.id).newR = (st r.id).newR ∧
    ((spacingPair rules st l r) r.id).startsLF = (st r.id).startsLF := by
  unfold spacingPair
  generalize matchingRules rules l ++ matchingRules rules r = rs
  induction rs generalizing st with
  | nil => exact ⟨fun _ _ => rfl, rfl, rfl, rfl⟩
  | cons a as ih =>
    obtain ⟨ih1, ih2, ih3, ih4⟩ := ih (computeSpacing st a l r)
    refine ⟨fun j hj => ?_, ?_, ?_, ?_⟩
    · rw [List.foldl_cons, ih1 j hj, computeSpacing_other st a l r j hj]
    · rw [List.foldl_cons, ih2, computeSpacing_r_fields (fun w => w.lenR) (by intros; rfl)]
    · rw [List.foldl_cons, ih3, computeSpacing_r_fields (fun w => w.newR) (by intros; rfl)]
    · rw [List.foldl_cons, ih4, computeSpacing_r_fields (fun w => w.startsLF) (by intros; rfl)]

/-- C6 witness: for the conflicting rule pair on adjacent tokens with ids 0
and 1, the store is unchanged at id 0 and the right cell's trailing space
count is preserved. -/
theorem c6_tiebreak_amended_witness :
    (spacingPair conflictRules stLF lBlk rBlk) 0 = stLF 0 ∧
    ((spacingPair conflictRules stLF lBlk rBlk) 1).lenR = (stLF 1).lenR :=
  ⟨(c6_tiebreak_amended conflictRules stLF lBlk rBlk).1 0 (by decide),
   (c6_tiebreak_amended conflictRules stLF lBlk rBlk).2.1⟩

/-- C4: the claim says any rule table with two indent rules matching the
kind of some block makes `format` fail with `AmbiguousIndentRule`; in fact
the ambiguity assertion is only reached for blocks whose leading whitespace
starts with a line feed — here the doubly-matched kind-11 node sits mid-line
and formatting silently succeeds (applying neither rule). -/
theorem c4_ambiguity_counterexample :
    format tMidLine [] ambigDsl = .ok ['a', '{'] := by
  rfl

/-- Helper: `check_indent` never changes any cell's `starts_with_lf` flag
(its only write is `set_indent`, which overwrites the leading space count). -/
theorem checkIndent_startsLF (a : List (List Nat)) (st : Store) (b : Block)
    (j : Nat) : ((checkIndent a st b) j).startsLF = (st j).startsLF := by
  unfold checkIndent setIndent setWS
  split
  · cases hft : firstTokenDesc b with
    | some t =>
        simp only [hft]
        by_cases hj : j = t.id
        · subst hj
          simp
        · simp [hj]
    | none =>
        simp only [hft]
        by_cases hj : j = b.id
        · subst hj
          simp
        · simp [hj]
  · rfl

/-- Helper: `check_indent` never changes which rules match (kinds are
immutable), and an `indentStep` that returns `ok` keeps every cell's
`starts_with_lf` flag. -/
theorem indentStep_ok_startsLF (dsl : IndentDsl) (st st' : Store) (b : Block)
    (h : indentStep dsl st b = .ok st') (j : Nat) :
    (st' j).startsLF = (st j).startsLF := by
  unfold indentStep at h
  rcases hms : dsl.rules.filter (fun r => r.pats.contains b.kind) with _ | ⟨m, more⟩ <;>
    rw [hms] at h
  · simp only [] at h
    cases h
    rfl
  · simp only [] at h
    by_cases hlf : (st b.id).startsLF
    · rw [if_pos hlf] at h
      by_cases hm : more.isEmpty
      · rw [if_pos hm] at h
        cases h
        exact checkIndent_startsLF dsl.anchors st b j
      · rw [if_neg hm] at h
        cases h
    · rw [if_neg hlf] at h
      cases h
      rfl

/-- Helper: `indentStep` fails (with the ambiguity assertion) exactly when
at least two indent rules match the block's kind and the block's leading
whitespace starts with a line feed. -/
theorem indentStep_error_iff (dsl : IndentDsl) (st : Store) (b : Block) :
    (∃ e, indentStep dsl st b = .error e) ↔
      2 ≤ (dsl.rules.filter (fun r => r.pats.contains b.kind)).length ∧
        (st b.id).startsLF = true := by
  unfold indentStep
  generalize dsl.rules.filter (fun r => r.pats.contains b.kind) = ms
  cases ms with
  | nil => simp
  | cons m more =>
      by_cases hlf : (st b.id).startsLF = true
      · cases more with
        | nil =>
            simp [hlf]
        | cons m2 more2 =>
            simp only [hlf, if_true, List.isEmpty_cons, if_false, Bool.false_eq_true,
              List.length_cons]
            constructor
            · intro _
              exact ⟨by omega, by trivial⟩
            · intro _
              exact ⟨.panicAssert, rfl⟩
      · simp [hlf]

/-- C4 amended: the run aborts (the `assert!` panic standing in for
`AmbiguousIndentRule`) if and only if some walked block both matches at
least two indent rules and has leading whitespace starting with a line
feed; a doubly-matched block that does not start a line is silently ignored
(neither rule is applied), and on abort no output is produced.  The
`starts_with_lf` flags are evaluated against the initial store since no
pass mutation ever changes them. -/
theorem c4_ambiguity_amended (dsl : IndentDsl) (blocks : List Block)
    (st : Store) :
    (∃ e, indentDiff dsl st blocks = .error e) ↔
      ∃ b ∈ blocks,
        2 ≤ (dsl.rules.filter (fun r => r.pats.contains b.kind)).length ∧
          (st b.id).startsLF = true := by
  induction blocks generalizing st with
  | nil =>
      simp [indentDiff, List.foldlM, pure, Except.pure]
  | cons b rest ih =>
      unfold indentDiff at ih ⊢
      rw [List.foldlM_cons]
      cases hstep : indentStep dsl st b with
      | error e =>
          have hred : ((Except.error e : Except FmtErr Store) >>=
              fun s => List.foldlM (indentStep dsl) s rest) =
              (Except.error e : Except FmtErr Store) := rfl
          rw [hred]
          constructor
          · intro _
            exact ⟨b, by simp, (indentStep_error_iff dsl st b).mp ⟨e, hstep⟩⟩
          · intro _
            exact ⟨e, rfl⟩
      | ok st' =>
          have hb : ¬(2 ≤ (dsl.rules.filter (fun r => r.pats.contains b.kind)).length ∧
              (st b.id).startsLF = true) := by
            intro hc
            obtain ⟨e, he⟩ := (indentStep_error_iff dsl st b).mpr hc
            rw [hstep] at he
            cases he
          have hLF := indentStep_ok_startsLF dsl st st' b hstep
          have hbind : ((Except.ok st' : Except FmtErr Store) >>=
              fun s => List.foldlM (indentStep dsl) s rest) =
              List.foldlM (indentStep dsl) st' rest := rfl
          rw [hbind, ih st']
          constructor
          · rintro ⟨b', hmem, hlen, hlf⟩
            exact ⟨b', by simp [hmem], hlen, by rw [← hLF b'.id]; exact hlf⟩
          · rintro ⟨b', hmem, hlen, hlf⟩
            rcases List.mem_cons.mp hmem with hb' | hmem'
            · subst hb'
              exact absurd ⟨hlen, hlf⟩ hb
            · exact ⟨b', hmem', hlen, by rw [hLF b'.id]; exact hlf⟩

/-- Helper: the ancestor fold of `check_indent` equals the base unit plus
the sum of the original indents of the ancestors matched by an anchor
pattern. -/
theorem indentAnchors_eq (anchors : List (List Nat)) (ancs : List (Nat × Nat)) :
    indentAnchors anchors ancs =
      INDENT + ((ancs.filter (fun a => anchorMatches anchors a.1)).map Prod.snd).sum := by
  unfold indentAnchors
  generalize INDENT = n
  induction ancs generalizing n with
  | nil => simp
  | cons a as ih =>
      by_cases h : anchorMatches anchors a.1 <;>
        · simp [h, List.foldl_cons, ih]
          try omega

/-- C8: the claim says the computed width adds, for each anchor-matched
ancestor, that ancestor's own *already-resolved* indent width.  It is false
on the code: running the indent pass on the nested-block tree `tNest`
resolves the outer block's line (its opener token, id 3) to width 4, so the
inner block's claimed width is 4 + 4 = 8; but the pass writes 4 to the
inner block's first token (`x`, id 5), because `check_indent` reads the
ancestor's *original* indent (zero) from blocks rebuilt on demand from the
unedited tree — the applied width is not one base unit plus the ancestor's
already-resolved width. -/
theorem c8_resolved_counterexample :
    indentDiff blockDsl (initStore bNest) (walkExcRoot bNest) = .ok stNest ∧
    (stNest 3).lenL = 4 ∧
    (stNest 5).lenL = 4 ∧
    (stNest 5).lenL ≠ INDENT + (stNest 3).lenL := by
  refine ⟨rfl, by decide, by decide, by decide⟩

/-- C8 amended: for a block whose leading whitespace starts with a line
feed and which matches exactly one indent rule, the indent pass succeeds
and computes width = one base unit (4) plus the sum, over ancestors
matching an anchor pattern, of that ancestor's *original* indent width —
the value rebuilt at construction time from the unedited tree's trivia, not
the already-resolved width the spec describes; when the block's current
indent already equals the width the write is skipped (the store is
unchanged), otherwise the width is written to the first token reached by
repeatedly descending into first children (or the block itself when there
is none). -/
theorem c8_indent_computation (dsl : IndentDsl) (st : Store) (b : Block)
    (h1 : (dsl.rules.filter (fun r => r.pats.contains b.kind)).length = 1)
    (h2 : (st b.id).startsLF = true) :
    ∃ st', indentStep dsl st b = .ok st' ∧
      (getIndentOf st b =
          INDENT + ((b.ancs.filter
            (fun a => anchorMatches dsl.anchors a.1)).map Prod.snd).sum →
        st' = st) ∧
      (getIndentOf st b ≠
          INDENT + ((b.ancs.filter
            (fun a => anchorMatches dsl.anchors a.1)).map Prod.snd).sum →
        st' = setIndent st ((firstTokenDesc b).getD b)
          (INDENT + ((b.ancs.filter
            (fun a => anchorMatches dsl.anchors a.1)).map Prod.snd).sum)) := by
  rcases hms : dsl.rules.filter (fun r => r.pats.contains b.kind) with _ | ⟨m, more⟩
  · rw [hms] at h1
    simp at h1
  · rw [hms] at h1
    simp only [List.length_cons, Nat.add_left_eq_self, List.length_eq_zero] at h1
    subst h1
    refine ⟨checkIndent dsl.anchors st b, ?_, ?_, ?_⟩
    · unfold indentStep
      rw [hms]
      simp [h2]
    · intro heq
      unfold checkIndent
      rw [indentAnchors_eq]
      simp [heq]
    · intro hne
      unfold checkIndent
      rw [indentAnchors_eq]
      rw [if_pos hne]
      cases hft : firstTokenDesc b with
      | some t => simp [hft]
      | none => simp [hft]

/-- C8 witness: the kind-11 node block with one kind-11 ancestor of original
indent two, under the anchored-block rule table, gets `ok` with width
4 + 2 = 6 written to its first token. -/
theorem c8_indent_computation_witness :
    ∃ st', indentStep blockDsl stLF bIndent = .ok st' ∧
      (getIndentOf stLF bIndent =
          INDENT + ((bIndent.ancs.filter
            (fun a => anchorMatches blockDsl.anchors a.1)).map Prod.snd).sum →
        st' = stLF) ∧
      (getIndentOf stLF bIndent ≠
          INDENT + ((bIndent.ancs.filter
            (fun a => anchorMatches blockDsl.anchors a.1)).map Prod.snd).sum →
        st' = setIndent stLF ((firstTokenDesc bIndent).getD bIndent)
          (INDENT + ((bIndent.ancs.filter
            (fun a => anchorMatches blockDsl.anchors a.1)).map Prod.snd).sum)) :=
  c8_indent_computation blockDsl stLF bIndent (by decide) (by rfl)

/-- Helper: rendering a single trailing token. -/
theorem applyEdits_single (st : Store) (a : Block) :
    applyEdits st [a] = renderTok st a none := by
  simp [applyEdits, zipNext]

/-- Helper: rendering splits off the first token when at least two remain. -/
theorem applyEdits_cons₂ (st : Store) (a b : Block) (rest : List Block) :
    applyEdits st (a :: b :: rest) =
      renderTok st a (some b) ++ applyEdits st (b :: rest) := by
  simp [applyEdits, zipNext]

/-- Helper: a token with non-empty text renders to a non-empty string. -/
theorem renderTok_ne_nil (st : Store) (b : Block) (n? : Option Block)
    (h : b.text ≠ []) : renderTok st b n? ≠ [] := by
  unfold renderTok
  simp [List.append_eq_nil, h]

/-- Helper: rendering a non-empty token list with non-empty texts yields a
non-empty string. -/
theorem applyEdits_ne_nil (st : Store) (toks : List Block) (hne : toks ≠ [])
    (htext : ∀ t ∈ toks, t.text ≠ []) : applyEdits st toks ≠ [] := by
  induction toks with
  | nil => exact absurd rfl hne
  | cons a rest ih =>
      cases rest with
      | nil =>
          rw [applyEdits_single]
          exact renderTok_ne_nil st a none (htext a (by simp))
      | cons b rest₂ =>
          rw [applyEdits_cons₂]
          intro hc
          rcases List.append_eq_nil.mp hc with ⟨h1, _⟩
          exact renderTok_ne_nil st a (some b) (htext a (by simp)) h1

/-- C1: the spec guarantees `format (format t) = format t`; the code breaks
it.  On the nested-block input `fn⏎{⏎x⏎}` the first run indents both block
openers by one unit (the inner width is computed from the outer block's
*original* indent, zero); re-parsing that output and formatting again
computes the inner width from the outer block's new indent (four) and moves
the inner line to eight — the second output differs from the first. -/
theorem c1_idempotence_fails_eval :
    format tNest [] blockDsl = .ok ("fn\n    \x7b\n    x\n\x7d".toList) ∧
    format tNest2 [] blockDsl = .ok ("fn\n    \x7b\n        x\n\x7d".toList) ∧
    ("fn\n    \x7b\n    x\n\x7d".toList ≠ "fn\n    \x7b\n        x\n\x7d".toList) := by
  refine ⟨by rfl, by rfl, by decide⟩

/-- Helper: rendering the last token keeps its trailing whitespace. -/
theorem renderTok_none (st : Store) (a : Block) :
    renderTok st a none =
      (toSpaceText (st a.id)).1 ++ a.text ++ (toSpaceText (st a.id)).2 := rfl

/-- C5 amended: there is no forced trailing newline; for token texts that
are non-empty and do not themselves end in a newline, the rendered output
ends with a newline character exactly when the last token's resolved
trailing whitespace has its newline flag set. -/
theorem c5_trailing_amended (st : Store) (toks : List Block) (hne : toks ≠ [])
    (htext : ∀ t ∈ toks, t.text ≠ [] ∧ t.text.getLast? ≠ some '\n') :
    ((applyEdits st toks).getLast? = some '\n' ↔
      (st (toks.getLast hne).id).newR = true) := by
  induction toks with
  | nil => exact absurd rfl hne
  | cons a rest ih =>
      cases rest with
      | nil =>
          rw [applyEdits_single, renderTok_none]
          have hgl : List.getLast [a] hne = a := rfl
          rw [hgl]
          by_cases hnr : (st a.id).newR = true
          · rw [show (toSpaceText (st a.id)).2 = ['\n'] by simp [toSpaceText, hnr]]
            rw [List.getLast?_append_of_ne_nil _ (by simp)]
            simp [hnr]
          · have h2 : (toSpaceText (st a.id)).2 =
                if (st a.id).lenR ≥ 1 then [' '] else [] := by
              simp [toSpaceText, hnr]
            rw [h2]
            by_cases hlen : (st a.id).lenR ≥ 1
            · rw [if_pos hlen, List.getLast?_append_of_ne_nil _ (by simp)]
              simp [hnr]
            · rw [if_neg hlen, List.append_nil,
                List.getLast?_append_of_ne_nil _ (htext a (by simp)).1]
              simp [hnr, (htext a (by simp)).2]
      | cons b rest₂ =>
          rw [applyEdits_cons₂]
          have hne2 : (b :: rest₂) ≠ [] := by simp
          have htext2 : ∀ t ∈ b :: rest₂, t.text ≠ [] ∧ t.text.getLast? ≠ some '\n' := by
            intro t ht
            exact htext t (by simp [ht])
          rw [List.getLast?_append_of_ne_nil _
            (applyEdits_ne_nil st (b :: rest₂) hne2 (fun t ht => (htext2 t ht).1))]
          have hgl : List.getLast (a :: b :: rest₂) hne = List.getLast (b :: rest₂) hne2 :=
            List.getLast_cons hne2
          rw [hgl]
          exact ih hne2 htext2

/-- Helper: `Whitespace::from_token` only panics when the token has neither
a previous nor a next token. -/
theorem wsFromToken_some (prev next : Option (Nat × List Char))
    (ptoks : List (List Char)) (h : prev ≠ none ∨ next ≠ none) :
    ∃ w, wsFromToken prev next ptoks = some w := by
  cases prev with
  | some p =>
      cases next with
      | some n => exact ⟨_, rfl⟩
      | none => exact ⟨_, rfl⟩
  | none =>
      cases next with
      | some n => exact ⟨_, rfl⟩
      | none => simp at h

/-- Helper: the token list of a node is the token list of its children. -/
theorem cstToks_node (k : Nat) (cs : List CST) :
    cstToks (.node k cs) = cstToksList cs := rfl

mutual

/-- Helper: building an element succeeds whenever the whole file has at
least two tokens (every token then has a token neighbour), provided the
element's position is its true global token offset. -/
theorem buildE_total (c : CST) (g pre post : List (Nat × List Char))
    (prevS nextS : Option Sib) (ptoks : List (List Char))
    (ancs : List (Nat × Nat)) (pos i : Nat)
    (hg : g = pre ++ cstToks c ++ post) (hp : pos = pre.length)
    (hlen : 2 ≤ g.length) :
    ∃ r, buildE g c prevS nextS ptoks ancs pos i = .ok r := by
  cases c with
  | token k t =>
      have hnone : (if pos = 0 then none else g.get? (pos - 1)) ≠ none ∨
          g.get? (pos + 1) ≠ none := by
        cases pre with
        | nil =>
            right
            subst hp hg
            cases post with
            | nil => simp [cstToks] at hlen
            | cons p ps => simp [cstToks]
        | cons q qs =>
            left
            have hpos : ¬ pos = 0 := by
              rw [hp]
              simp
            rw [if_neg hpos]
            intro hc
            rw [List.get?_eq_none] at hc
            have hgl : g.length =
                ((q :: qs) : List (Nat × List Char)).length +
                  ((cstToks (CST.token k t)).length + post.length) := by
              rw [hg]
              simp only [List.length_append]
              omega
            have h1 : ((q :: qs) : List (Nat × List Char)).length = qs.length + 1 := rfl
            omega
      obtain ⟨w, hw⟩ :=
        wsFromToken_some (if pos = 0 then none else g.get? (pos - 1))
          (g.get? (pos + 1)) ptoks hnone
      refine ⟨(.mk ⟨i, k, true, t, ancs, w⟩ [], i + 1), ?_⟩
      unfold buildE
      rw [hw]
  | node k cs =>
      have hg' : g = pre ++ cstToksList cs ++ post := by
        rw [hg, cstToks_node]
      obtain ⟨⟨bs, i'⟩, hok⟩ :=
        buildKids_total cs g pre post none ((cstToksList cs).map Prod.snd)
          ((k, if (wsFromNode prevS nextS).startsLF then (wsFromNode prevS nextS).lenL
               else 0) :: ancs) pos (i + 1) hg' hp hlen
      refine ⟨(.mk ⟨i, k, false, cstText (.node k cs), ancs, wsFromNode prevS nextS⟩ bs, i'), ?_⟩
      simp only [buildE, hok]

/-- Helper: building a child list succeeds whenever the whole file has at
least two tokens, provided the position is the children's global token
offset. -/
theorem buildKids_total (cs : List CST) (g pre post : List (Nat × List Char))
    (prevS : Option Sib) (ptoks : List (List Char)) (ancs : List (Nat × Nat))
    (pos i : Nat) (hg : g = pre ++ cstToksList cs ++ post)
    (hp : pos = pre.length) (hlen : 2 ≤ g.length) :
    ∃ r, buildKids g cs prevS ptoks ancs pos i = .ok r := by
  cases cs with
  | nil => exact ⟨([], i), rfl⟩
  | cons c rest =>
      have hg' : g = (pre ++ cstToks c) ++ cstToksList rest ++ post := by
        rw [hg]
        simp [cstToksList, List.append_assoc]
      have hp' : pos + (cstToks c).length = (pre ++ cstToks c).length := by
        rw [List.length_append, hp]
      by_cases hws : isWsTok c = true
      · obtain ⟨r, hr⟩ :=
          buildKids_total rest g (pre ++ cstToks c) post (some (sibOf c)) ptoks ancs
            (pos + (cstToks c).length) i hg' hp' hlen
        refine ⟨r, ?_⟩
        unfold buildKids
        rw [if_pos hws]
        exact hr
      · have hgE : g = pre ++ cstToks c ++ (cstToksList rest ++ post) := by
          rw [hg]
          simp [cstToksList, List.append_assoc]
        obtain ⟨⟨b, i1⟩, h1⟩ :=
          buildE_total c g pre (cstToksList rest ++ post) prevS
            (rest.head?.map sibOf) ptoks ancs pos i hgE hp hlen
        obtain ⟨⟨bs, i2⟩, h2⟩ :=
          buildKids_total rest g (pre ++ cstToks c) post (some (sibOf c)) ptoks ancs
            (pos + (cstToks c).length) i1 hg' hp' hlen
        refine ⟨(b :: bs, i2), ?_⟩
        simp [buildKids, hws, h1, h2]

end

/-- C9 amended: Block-tree construction (with its per-element `Whitespace`
computation) succeeds for every parsed tree with at least two tokens —
every token then has an adjacent token, so `from_token` never hits its
`unreachable!` — and a node root's own whitespace is the explicit zero/none
record; a single-token file, however, panics (see the counterexample). -/
theorem c9_construction_amended (c : CST) (h : 2 ≤ (cstToks c).length) :
    ∃ b, build c = .ok b ∧ ∀ k cs, c = .node k cs → b.data.ws0 = wsZero := by
  obtain ⟨⟨b, i⟩, hok⟩ :=
    buildE_total c (cstToks c) [] [] none none [] [] 0 0 (by simp) rfl h
  refine ⟨b, ?_, ?_⟩
  · unfold build
    rw [hok]
    rfl
  · intro k cs hc
    subst hc
    unfold buildE at hok
    cases hkids : buildKids (cstToks (CST.node k cs)) cs none
        ((cstToksList cs).map Prod.snd)
        ((k, if (wsFromNode none none).startsLF then (wsFromNode none none).lenL
             else 0) :: []) 0 1 with
    | ok p =>
        rw [hkids] at hok
        cases hok
        rfl
    | error e =>
        rw [hkids] at hok
        cases hok

/-- C9 amended witness: the two-token file `a;` builds successfully and its
root whitespace is the zero record. -/
theorem c9_construction_amended_witness :
    2 ≤ (cstToks tTwo).length ∧
      ∃ b, build tTwo = .ok b ∧ ∀ k cs, tTwo = .node k cs → b.data.ws0 = wsZero :=
  ⟨by decide, c9_construction_amended tTwo (by decide)⟩

/-- Helper: a block is its own children's flattening. -/
theorem flattenToksOf_eq (b : Block) : flattenToksOf b = flattenToks b.children := by
  cases b
  rfl

/-- Helper: a built token block carries no children. -/
theorem buildE_tok_children (g : List (Nat × List Char)) (c : CST)
    (prevS nextS : Option Sib) (ptoks : List (List Char))
    (ancs : List (Nat × Nat)) (pos i : Nat) (b : Block) (i' : Nat)
    (h : buildE g c prevS nextS ptoks ancs pos i = .ok (b, i')) :
    b.isTok = true → b.children = [] := by
  cases c with
  | token k t =>
      unfold buildE at h
      cases hw : wsFromToken (if pos = 0 then none else g.get? (pos - 1))
          (g.get? (pos + 1)) ptoks with
      | some w =>
          rw [hw] at h
          cases h
          intro _
          rfl
      | none =>
          rw [hw] at h
          cases h
  | node k cs =>
      unfold buildE at h
      cases hk : buildKids g cs none ((cstToksList cs).map Prod.snd)
          ((k, if (wsFromNode prevS nextS).startsLF then (wsFromNode prevS nextS).lenL
               else 0) :: ancs) pos (i + 1) with
      | ok p =>
          rw [hk] at h
          cases h
          intro hc
          cases hc
      | error e =>
          rw [hk] at h
          cases h

/-- Helper: the token flattening of a cons is the head's tokens followed by
the tail's, for blocks whose token form carries no children. -/
theorem flattenToks_cons (b : Block) (rest : List Block)
    (hb : b.isTok = true → b.children = []) :
    flattenToks (b :: rest) = toksOf b ++ flattenToks rest := by
  by_cases hbt : b.isTok = true
  · have hc : b.children = [] := hb hbt
    simp [flattenToks, toksOf, hbt, hc, flattenToksOf_eq]
  · rw [Bool.not_eq_true] at hbt
    by_cases hce : b.children.isEmpty = true
    · have hcn : b.children = [] := by simpa [List.isEmpty_iff] using hce
      simp [flattenToks, toksOf, hbt, hce, flattenToksOf_eq, hcn]
    · simp [flattenToks, toksOf, hbt, hce, flattenToksOf_eq]

mutual

/-- Helper: the token signature of a built element's token-only flattening
is the element's non-whitespace token list, in order. -/
theorem buildE_sig (c : CST) (g : List (Nat × List Char))
    (prevS nextS : Option Sib) (ptoks : List (List Char))
    (ancs : List (Nat × Nat)) (pos i : Nat) (b : Block) (i' : Nat)
    (h : buildE g c prevS nextS ptoks ancs pos i = .ok (b, i'))
    (hws : isWsTok c = false) :
    tokSig (toksOf b) = (cstToks c).filter (fun kt => kt.1 != 0) := by
  cases c with
  | token k t =>
      unfold buildE at h
      cases hw : wsFromToken (if pos = 0 then none else g.get? (pos - 1))
          (g.get? (pos + 1)) ptoks with
      | some w =>
          rw [hw] at h
          cases h
          have hk : (k == 0) = false := by simpa [isWsTok] using hws
          have hb : (k != 0) = true := by simp [bne, hk]
          simp [toksOf, tokSig, Block.isTok, Block.data, Block.kind, Block.text,
            cstToks, List.filter, hb]
      | none =>
          rw [hw] at h
          cases h
  | node k cs =>
      unfold buildE at h
      cases hk : buildKids g cs none ((cstToksList cs).map Prod.snd)
          ((k, if (wsFromNode prevS nextS).startsLF then (wsFromNode prevS nextS).lenL
               else 0) :: ancs) pos (i + 1) with
      | ok p =>
          rw [hk] at h
          cases h
          have := buildKids_sig cs g none ((cstToksList cs).map Prod.snd)
            ((k, if (wsFromNode prevS nextS).startsLF then (wsFromNode prevS nextS).lenL
                 else 0) :: ancs) pos (i + 1) p.1 p.2 (by rw [hk])
          simpa [toksOf, Block.isTok, Block.data, Block.children, flattenToksOf,
            cstToks] using this
      | error e =>
          rw [hk] at h
          cases h

/-- Helper: the token signature of built child blocks is the children's
non-whitespace token list, in order. -/
theorem buildKids_sig (cs : List CST) (g : List (Nat × List Char))
    (prevS : Option Sib) (ptoks : List (List Char)) (ancs : List (Nat × Nat))
    (pos i : Nat) (bs : List Block) (i' : Nat)
    (h : buildKids g cs prevS ptoks ancs pos i = .ok (bs, i')) :
    tokSig (flattenToks bs) = (cstToksList cs).filter (fun kt => kt.1 != 0) := by
  cases cs with
  | nil =>
      unfold buildKids at h
      cases h
      rfl
  | cons c rest =>
      by_cases hws : isWsTok c = true
      · have hrec : buildKids g rest (some (sibOf c)) ptoks ancs
            (pos + (cstToks c).length) i = .ok (bs, i') := by
          unfold buildKids at h
          rw [if_pos hws] at h
          exact h
        have ih := buildKids_sig rest g (some (sibOf c)) ptoks ancs
          (pos + (cstToks c).length) i bs i' hrec
        cases c with
        | token k t =>
            have hk : (k == 0) = true := by simpa [isWsTok] using hws
            have hk0 : k = 0 := by simpa using hk
            subst hk0
            simp [cstToksList, cstToks, List.filter_append, ih]
        | node k kids => simp [isWsTok] at hws
      · rw [Bool.not_eq_true] at hws
        unfold buildKids at h
        rw [if_neg (by simp [hws])] at h
        cases hE : buildE g c prevS (rest.head?.map sibOf) ptoks ancs pos i with
        | ok p =>
            rw [hE] at h
            obtain ⟨b, i1⟩ := p
            simp only [] at h
            cases hK : buildKids g rest (some (sibOf c)) ptoks ancs
                (pos + (cstToks c).length) i1 with
            | ok q =>
                rw [hK] at h
                obtain ⟨bs', i2⟩ := q
                simp only [] at h
                cases h
                have hshape := buildE_tok_children g c prevS (rest.head?.map sibOf)
                  ptoks ancs pos i b i1 hE
                have hsig := buildE_sig c g prevS (rest.head?.map sibOf) ptoks ancs
                  pos i b i1 hE hws
                have ih := buildKids_sig rest g (some (sibOf c)) ptoks ancs
                  (pos + (cstToks c).length) i1 bs' i' hK
                rw [flattenToks_cons b bs' hshape]
                simp [tokSig, List.map_append, cstToksList, List.filter_append] at hsig ih ⊢
                rw [hsig, ih]
            | error e =>
                rw [hK] at h
                cases h
        | error e =>
            rw [hE] at h
            cases h

end

/-- Helper: the leading component of the rendered whitespace, spelled out. -/
theorem toSpaceText_fst (w : WS) :
    (toSpaceText w).1 =
      if w.newL then
        (if w.startsLF && w.lenL > 0 then '\n' :: spaces w.lenL else ['\n'])
      else if w.lenL ≥ 1 then [' '] else [] := rfl

/-- Helper: the trailing component of the rendered whitespace, spelled out. -/
theorem toSpaceText_snd (w : WS) :
    (toSpaceText w).2 =
      if w.newR then ['\n'] else if w.lenR ≥ 1 then [' '] else [] := rfl

/-- Helper: both rendered whitespace components consist solely of spaces
and newlines. -/
theorem toSpaceText_all (w : WS) :
    (toSpaceText w).1.all isWsChar = true ∧ (toSpaceText w).2.all isWsChar = true := by
  constructor
  · rw [toSpaceText_fst]
    split <;> (try split) <;>
      simp_all [spaces, isWsChar, List.all_eq_true, List.mem_replicate]
  · rw [toSpaceText_snd]
    split <;> (try split) <;>
      simp_all [isWsChar, List.all_eq_true]

/-- Helper: rendering against a successor is the leading whitespace, the
text, and a whitespace-only tail. -/
theorem renderTok_some_decomp (st : Store) (a n : Block) :
    ∃ aft, renderTok st a (some n) = (toSpaceText (st a.id)).1 ++ a.text ++ aft ∧
      aft.all isWsChar = true := by
  unfold renderTok
  by_cases h : (toSpaceText (st a.id)).2 = (toSpaceText (st n.id)).1 ∨
      ((toSpaceText (st n.id)).1.contains '\n' : Bool) = true
  · exact ⟨[], by simp only [if_pos h], by simp⟩
  · exact ⟨(toSpaceText (st a.id)).2, by simp only [if_neg h], (toSpaceText_all _).2⟩

/-- Helper: a whitespace-only prefix distributes over the interleaving's
head gap. -/
theorem interleave_append_head (x g : List Char) (gs : List (List Char))
    (ts : List (List Char)) :
    interleave ((x ++ g) :: gs) ts = x ++ interleave (g :: gs) ts := by
  cases ts with
  | nil => rfl
  | cons t ts' => simp [interleave, List.append_assoc]

/-- Helper: the renderer's output interleaves whitespace-only gap strings
with the token texts, in order — no token text is dropped, duplicated or
reordered. -/
theorem applyEdits_interleave (st : Store) (toks : List Block) :
    ∃ gaps, gaps.length = toks.length + 1 ∧
      (∀ gp ∈ gaps, gp.all isWsChar = true) ∧
      applyEdits st toks = interleave gaps (toks.map Block.text) := by
  induction toks with
  | nil =>
      exact ⟨[[]], rfl, by simp, rfl⟩
  | cons a rest ih =>
      cases rest with
      | nil =>
          refine ⟨[(toSpaceText (st a.id)).1, (toSpaceText (st a.id)).2], rfl, ?_, ?_⟩
          · intro gp hgp
            rcases List.mem_cons.mp hgp with h | h
            · subst h
              exact (toSpaceText_all _).1
            · rcases List.mem_cons.mp h with h2 | h2
              · subst h2
                exact (toSpaceText_all _).2
              · cases h2
          · rw [applyEdits_single, renderTok_none]
            simp [interleave, List.append_assoc]
      | cons b rest₂ =>
          obtain ⟨gaps, hlen, hws, heq⟩ := ih
          cases gaps with
          | nil => simp at hlen
          | cons g0 gs =>
              obtain ⟨aft, haft, haftws⟩ := renderTok_some_decomp st a b
              refine ⟨(toSpaceText (st a.id)).1 :: (aft ++ g0) :: gs, ?_, ?_, ?_⟩
              · simp at hlen ⊢
                omega
              · intro gp hgp
                rcases List.mem_cons.mp hgp with h | h
                · subst h
                  exact (toSpaceText_all _).1
                · rcases List.mem_cons.mp h with h2 | h2
                  · subst h2
                    rw [List.all_append, haftws, hws g0 (by simp)]
                    rfl
                  · exact hws gp (by simp [h2])
              · rw [applyEdits_cons₂, haft, heq]
                simp only [List.map_cons, interleave, interleave_append_head]
                simp [List.append_assoc]

/-- C2: (1) the Block tree's token-only pre-order traversal enumerates
exactly the CST's non-trivia (non-whitespace) tokens, with their texts, in
original order; (2) for every store — hence at every point of the two
passes — the rendered output interleaves whitespace-only gaps with exactly
those token texts in order, so formatting never inserts, deletes or
reorders semantic tokens. -/
theorem c2_token_preservation (c : CST) (b : Block) (h : build c = .ok b) :
    tokSig (walkTokensB b) = (cstToks c).filter (fun kt => kt.1 != 0) ∧
    ∀ st : Store, ∃ gaps, (∀ gp ∈ gaps, gp.all isWsChar = true) ∧
      applyEdits st (walkTokensB b) = interleave gaps ((walkTokensB b).map Block.text) := by
  constructor
  · cases c with
    | token k t =>
        unfold build buildE at h
        simp [cstToks, wsFromToken, Except.map] at h
    | node k cs =>
        unfold build at h
        cases hE : buildE (cstToks (CST.node k cs)) (CST.node k cs) none none [] [] 0 0 with
        | ok p =>
            rw [hE] at h
            cases h
            have hsig := buildE_sig (CST.node k cs) (cstToks (CST.node k cs))
              none none [] [] 0 0 p.1 p.2 (by rw [hE]) (by rfl)
            have hnode : toksOf p.1 = walkTokensB p.1 := by
              unfold buildE at hE
              cases hk : buildKids (cstToks (CST.node k cs)) cs none
                  ((cstToksList cs).map Prod.snd)
                  ((k, if (wsFromNode none none).startsLF then (wsFromNode none none).lenL
                       else 0) :: []) 0 1 with
              | ok q =>
                  rw [hk] at hE
                  cases hE
                  rfl
              | error e =>
                  rw [hk] at hE
                  cases hE
            rw [← hnode]
            exact hsig
        | error e =>
            rw [hE] at h
            cases h
  · intro st
    obtain ⟨gaps, _, hws, heq⟩ := applyEdits_interleave st (walkTokensB b)
    exact ⟨gaps, hws, heq⟩

/-- C2 witness: the two-token file `a;` builds, its token-only traversal is
exactly `[(1, a), (2, ;)]`, and the interleaving property holds at the
initial store. -/
theorem c2_token_preservation_witness :
    tokSig (walkTokensB bTwo) = (cstToks tTwo).filter (fun kt => kt.1 != 0) ∧
    ∃ gaps, (∀ gp ∈ gaps, gp.all isWsChar = true) ∧
      applyEdits (initStore bTwo) (walkTokensB bTwo) =
        interleave gaps ((walkTokensB bTwo).map Block.text) :=
  ⟨(c2_token_preservation tTwo bTwo (by rfl)).1,
   (c2_token_preservation tTwo bTwo (by rfl)).2 (initStore bTwo)⟩

/-- C5 amended witness: for two concrete token blocks under the
all-fresh-lines store (whose newline flags are set), the equivalence holds
at a concrete input. -/
theorem c5_trailing_amended_witness :
    ((applyEdits stLF [lBlk, rBlk]).getLast? = some '\n' ↔
      (stLF (List.getLast [lBlk, rBlk] (List.cons_ne_nil _ _)).id).newR = true) :=
  c5_trailing_amended stLF [lBlk, rBlk] (List.cons_ne_nil _ _) (by
    intro t ht
    rcases List.mem_cons.mp ht with h | h
    · subst h
      exact ⟨by decide, by decide⟩
    · rcases List.mem_cons.mp h with h2 | h2
      · subst h2
        exact ⟨by decide, by decide⟩
      · cases h2)

end RaFmt
